import Mathlib

/-!
Verification of the angular actuation and position-tracking subsystem of
`planes.py` (stepper-motor plane tracker).  The Python source is embedded
shallowly: machine integers become `ℤ`, Python floats become exact
rationals `ℚ`, Python `int(x)` becomes truncation toward zero, Python `%`
on integers (sign of divisor, here always positive) becomes `Int.emod`.
-/

namespace Aeronear

/-! ## Constants from planes.py -/

/-- `LED_COUNT = 24` -/
def LED_COUNT : ℤ := 24

/-- `revolution = 2038` -/
def revolution : ℤ := 2038

/-- `steps_per_degree = revolution / 360.0` -/
def steps_per_degree : ℚ := (revolution : ℚ) / 360

/-- `steps = 4` (number of coil phases) -/
def steps : ℤ := 4

/-- `seq[0..3]`: the coil activation sequence for the stepper motor. -/
def seq : List (List Bool) :=
  [[true,  true,  false, false],
   [false, true,  true,  false],
   [false, false, true,  true ],
   [true,  false, false, true ]]

/-- `led_intensity = 128` -/
def led_intensity : ℤ := 128

/-- Python `int(x)` on a real value: truncation toward zero. -/
def trunc (q : ℚ) : ℤ := if 0 ≤ q then ⌊q⌋ else ⌈q⌉

/-! ## Motor state and stepping -/

/-- The mutable globals touched by the motor code: `position`,
`current_step`, `accumulated_error`, and the last coil activation
written by `motor_set_coils`. -/
structure State where
  position : ℤ
  current_step : ℤ
  accumulated_error : ℚ
  coils : List Bool
deriving DecidableEq

/-- `motor_set_coils(a, b, c, d)` -/
def motor_set_coils (a b c d : Bool) (s : State) : State :=
  { s with coils := [a, b, c, d] }

/-- `motor_step(clockwise)`: increments or decrements `current_step` and
`position`, wraps them mod `steps` and `revolution`, then energises the
coil phase `seq[current_step]`. -/
def motor_step (clockwise : Bool) (s : State) : State :=
  let cs : ℤ := (if clockwise then s.current_step + 1 else s.current_step - 1) % steps
  let p : ℤ := (if clockwise then s.position + 1 else s.position - 1) % revolution
  let phase : List Bool := seq.getD cs.toNat []
  motor_set_coils (phase.getD 0 false) (phase.getD 1 false)
      (phase.getD 2 false) (phase.getD 3 false)
    { s with current_step := cs, position := p }

/-- `motor_off()` -/
def motor_off (s : State) : State :=
  motor_set_coils false false false false s

/-- The `for i in range(count): motor_step(clockwise)` loop body of
`plane_rotate` (delays are timing only and carry no state). -/
def rotate_steps : ℕ → Bool → State → State
  | 0, _, s => s
  | n + 1, clockwise, s => rotate_steps n clockwise (motor_step clockwise s)

/-- `plane_rotate(delay, count, clockwise)`: `count` single steps followed
by `motor_off()`.  A Python `range` over a negative count is empty, which
is modelled by the `ℕ` count (callers pass `Int.toNat`). -/
def plane_rotate (count : ℕ) (clockwise : Bool) (s : State) : State :=
  motor_off (rotate_steps count clockwise s)

/-! ## plane_track, split into its intermediate values

`plane_track(trak)` computes, in order: `d`, `delta = int(d)`, the new
accumulated error, an optional integer `fix` folded into `delta`, the
direction, the absolute delta, and the shortest-path reduction.  Each
line of the Python function is one definition below, taking the read
globals `position` (`p`) and `accumulated_error` (`e`) as arguments. -/

/-- `d = trak * steps_per_degree - position` -/
def track_d (trak : ℚ) (p : ℤ) : ℚ := trak * steps_per_degree - (p : ℚ)

/-- `delta = int(d)` -/
def track_delta0 (trak : ℚ) (p : ℤ) : ℤ := trunc (track_d trak p)

/-- `accumulated_error += (d - delta)` -/
def track_err1 (trak : ℚ) (p : ℤ) (e : ℚ) : ℚ :=
  e + (track_d trak p - (track_delta0 trak p : ℚ))

/-- `fix = int(accumulated_error)` when `abs(accumulated_error) >= 1`,
otherwise no fix is applied. -/
def track_fix (trak : ℚ) (p : ℤ) (e : ℚ) : ℤ :=
  if 1 ≤ |track_err1 trak p e| then trunc (track_err1 trak p e) else 0

/-- `delta += fix` -/
def track_delta (trak : ℚ) (p : ℤ) (e : ℚ) : ℤ :=
  track_delta0 trak p + track_fix trak p e

/-- `accumulated_error -= fix` -/
def track_err2 (trak : ℚ) (p : ℤ) (e : ℚ) : ℚ :=
  track_err1 trak p e - (track_fix trak p e : ℚ)

/-- `clockwise = delta > 0` (before the shortest-path flip) -/
def track_cw0 (trak : ℚ) (p : ℤ) (e : ℚ) : Bool :=
  decide (0 < track_delta trak p e)

/-- `delta = abs(delta)` -/
def track_absDelta (trak : ℚ) (p : ℤ) (e : ℚ) : ℤ :=
  |track_delta trak p e|

/-- The test `delta > revolution/2` (Python true division, so a rational
comparison). -/
def track_flip (trak : ℚ) (p : ℤ) (e : ℚ) : Bool :=
  decide ((revolution : ℚ) / 2 < (track_absDelta trak p e : ℚ))

/-- The step count finally passed to `plane_rotate`: `revolution - delta`
if the flip fired, else `delta`. -/
def track_steps (trak : ℚ) (p : ℤ) (e : ℚ) : ℤ :=
  if track_flip trak p e then revolution - track_absDelta trak p e
  else track_absDelta trak p e

/-- The direction finally passed to `plane_rotate`: inverted when the
flip fired. -/
def track_cw (trak : ℚ) (p : ℤ) (e : ℚ) : Bool :=
  if track_flip trak p e then !track_cw0 trak p e else track_cw0 trak p e

/-- `plane_track(trak)`: update `accumulated_error`, then drive the
chosen number of steps in the chosen direction. -/
def plane_track (trak : ℚ) (s : State) : State :=
  plane_rotate (track_steps trak s.position s.accumulated_error).toNat
    (track_cw trak s.position s.accumulated_error)
    { s with accumulated_error := track_err2 trak s.position s.accumulated_error }

/-- A sequence of `plane_track` calls (the tracking loop). -/
def run_tracks (s : State) (traks : List ℚ) : State :=
  traks.foldl (fun st t => plane_track t st) s

/-! ## Basic facts about truncation toward zero -/

theorem trunc_intCast (n : ℤ) : trunc (n : ℚ) = n := by
  unfold trunc
  split <;> simp

theorem sub_trunc_bounds (q : ℚ) :
    -1 < q - (trunc q : ℚ) ∧ q - (trunc q : ℚ) < 1 := by
  unfold trunc
  split
  · have h1 := Int.floor_le q
    have h2 := Int.lt_floor_add_one q
    constructor <;> linarith
  · have h1 := Int.le_ceil q
    have h2 := Int.ceil_lt_add_one q
    constructor <;> linarith

theorem trunc_nonneg {q : ℚ} (h : 0 ≤ q) : 0 ≤ trunc q := by
  unfold trunc
  rw [if_pos h]
  exact Int.floor_nonneg.mpr h

theorem trunc_nonpos {q : ℚ} (h : q < 0) : trunc q ≤ 0 := by
  unfold trunc
  rw [if_neg (not_le.mpr h)]
  exact Int.ceil_le.mpr (by exact_mod_cast h.le)

theorem trunc_lt {q : ℚ} {n : ℤ} (hn : 0 < n) (h : q < (n : ℚ)) :
    trunc q < n := by
  unfold trunc
  split
  · exact Int.floor_lt.mpr h
  · rename_i h0
    have : q < 0 := not_le.mp h0
    calc ⌈q⌉ ≤ 0 := Int.ceil_le.mpr (by exact_mod_cast this.le)
    _ < n := hn

theorem lt_trunc {q : ℚ} {n : ℤ} (hn : n < 0) (h : (n : ℚ) < q) :
    n < trunc q := by
  unfold trunc
  split
  · rename_i h0
    calc n < 0 := hn
    _ ≤ ⌊q⌋ := Int.floor_nonneg.mpr h0
  · exact Int.lt_ceil.mpr h

theorem trunc_eq_zero {q : ℚ} (h1 : -1 < q) (h2 : q < 1) : trunc q = 0 := by
  unfold trunc
  split
  · rename_i h0
    exact Int.floor_eq_zero_iff.mpr ⟨h0, h2⟩
  · rename_i h0
    exact Int.ceil_eq_zero_iff.mpr ⟨h1, (not_le.mp h0).le⟩

theorem trunc_eq_of_nonneg {q : ℚ} {n : ℤ} (hn : 0 ≤ n)
    (h1 : (n : ℚ) ≤ q) (h2 : q < (n : ℚ) + 1) : trunc q = n := by
  have h0 : 0 ≤ q := le_trans (by exact_mod_cast hn) h1
  unfold trunc
  rw [if_pos h0]
  rw [Int.floor_eq_iff]
  · exact ⟨h1, by linarith⟩

theorem trunc_eq_of_nonpos {q : ℚ} {n : ℤ} (hn : n ≤ 0)
    (h1 : (n : ℚ) - 1 < q) (h2 : q ≤ (n : ℚ)) : trunc q = n := by
  unfold trunc
  split
  · rename_i h0
    have hn' : (n : ℚ) = 0 := le_antisymm (by exact_mod_cast hn) (le_trans h0 h2)
    have hq : q = 0 := le_antisymm (hn' ▸ h2) h0
    have : n = 0 := by exact_mod_cast hn'
    simp [hq, this]
  · rw [Int.ceil_eq_iff]
    · exact ⟨by linarith, h2⟩

/-! ## The error-accumulation step -/

theorem track_err1_bounds (trak : ℚ) (p : ℤ) {e : ℚ}
    (he1 : -1 < e) (he2 : e < 1) :
    -2 < track_err1 trak p e ∧ track_err1 trak p e < 2 := by
  have h := sub_trunc_bounds (track_d trak p)
  unfold track_err1 track_delta0
  constructor <;> linarith [h.1, h.2]

/-- Behaviour of the `fix` branch of `plane_track` for any error value in
`(-2, 2)`: either the error is at least one and a single positive step is
extracted, at most minus one and a single negative step is extracted, or
it is strictly inside `(-1, 1)` and nothing happens. -/
theorem track_fix_cases (trak : ℚ) (p : ℤ) (e : ℚ)
    (h1 : -2 < track_err1 trak p e) (h2 : track_err1 trak p e < 2) :
    (1 ≤ track_err1 trak p e ∧ track_fix trak p e = 1) ∨
    (track_err1 trak p e ≤ -1 ∧ track_fix trak p e = -1) ∨
    (-1 < track_err1 trak p e ∧ track_err1 trak p e < 1 ∧
      track_fix trak p e = 0) := by
  set x := track_err1 trak p e with hx
  unfold track_fix
  rw [← hx]
  rcases le_or_lt 1 x with hge | hlt
  · left
    refine ⟨hge, ?_⟩
    rw [if_pos (by rw [abs_of_nonneg (by linarith)]; exact hge)]
    exact trunc_eq_of_nonneg (by norm_num) (by push_cast; linarith)
      (by push_cast; linarith)
  · rcases le_or_lt x (-1) with hle | hgt
    · right; left
      refine ⟨hle, ?_⟩
      rw [if_pos (by rw [abs_of_nonpos (by linarith)]; linarith)]
      exact trunc_eq_of_nonpos (by norm_num) (by push_cast; linarith)
        (by push_cast; linarith)
    · right; right
      refine ⟨hgt, hlt, ?_⟩
      rw [if_neg (show ¬1 ≤ |x| by
        rw [not_le, abs_lt]; exact ⟨by linarith, by linarith⟩)]

theorem track_fix_bounds (trak : ℚ) (p : ℤ) {e : ℚ}
    (he1 : -1 < e) (he2 : e < 1) :
    -1 ≤ track_fix trak p e ∧ track_fix trak p e ≤ 1 := by
  obtain ⟨h1, h2⟩ := track_err1_bounds trak p he1 he2
  rcases track_fix_cases trak p e h1 h2 with ⟨_, h⟩ | ⟨_, h⟩ | ⟨_, _, h⟩ <;>
    rw [h] <;> norm_num

/-- The accumulated-error invariant for one call: if the error is in
`(-1, 1)` at entry, it is in `(-1, 1)` after the `fix` step. -/
theorem track_err2_bounds (trak : ℚ) (p : ℤ) {e : ℚ}
    (he1 : -1 < e) (he2 : e < 1) :
    -1 < track_err2 trak p e ∧ track_err2 trak p e < 1 := by
  obtain ⟨h1, h2⟩ := track_err1_bounds trak p he1 he2
  unfold track_err2
  rcases track_fix_cases trak p e h1 h2 with ⟨hb, h⟩ | ⟨hb, h⟩ | ⟨hb, hb', h⟩ <;>
    rw [h] <;> push_cast <;> constructor <;> linarith

/-! ## Step-count bounds for one call of plane_track -/

theorem track_d_bounds {trak : ℚ} {p : ℤ}
    (hp0 : 0 ≤ p) (hp1 : p < revolution) (ht0 : 0 ≤ trak) (ht1 : trak < 360) :
    -2038 < track_d trak p ∧ track_d trak p < 2038 := by
  unfold track_d steps_per_degree revolution
  unfold revolution at hp1
  have hps : (0 : ℚ) ≤ trak * ((2038 : ℚ) / 360) :=
    mul_nonneg ht0 (by norm_num)
  have hps2 : trak * ((2038 : ℚ) / 360) < 360 * ((2038 : ℚ) / 360) :=
    mul_lt_mul_of_pos_right ht1 (by norm_num)
  have hc0 : (0 : ℚ) ≤ (p : ℚ) := by exact_mod_cast hp0
  have hc1 : (p : ℚ) < 2038 := by exact_mod_cast hp1
  constructor <;> push_cast <;> nlinarith

theorem track_delta0_bounds {trak : ℚ} {p : ℤ}
    (hp0 : 0 ≤ p) (hp1 : p < revolution) (ht0 : 0 ≤ trak) (ht1 : trak < 360) :
    -2038 < track_delta0 trak p ∧ track_delta0 trak p < 2038 := by
  obtain ⟨h1, h2⟩ := track_d_bounds hp0 hp1 ht0 ht1
  unfold track_delta0
  constructor
  · exact lt_trunc (by norm_num) (by push_cast; linarith)
  · exact trunc_lt (by norm_num) (by push_cast; linarith)

theorem track_delta_bounds {trak : ℚ} {p : ℤ} {e : ℚ}
    (hp0 : 0 ≤ p) (hp1 : p < revolution) (ht0 : 0 ≤ trak) (ht1 : trak < 360)
    (he1 : -1 < e) (he2 : e < 1) :
    -revolution ≤ track_delta trak p e ∧ track_delta trak p e ≤ revolution := by
  obtain ⟨h1, h2⟩ := track_delta0_bounds hp0 hp1 ht0 ht1
  obtain ⟨h3, h4⟩ := track_fix_bounds trak p he1 he2
  unfold track_delta
  unfold revolution
  omega

/-- The shortest-path test `delta > revolution/2` holds exactly when the
absolute delta exceeds 1019 steps. -/
theorem track_flip_iff (trak : ℚ) (p : ℤ) (e : ℚ) :
    track_flip trak p e = true ↔ 1019 < track_absDelta trak p e := by
  unfold track_flip revolution
  rw [decide_eq_true_iff]
  constructor
  · intro h
    by_contra hc
    push_neg at hc
    have : ((track_absDelta trak p e : ℤ) : ℚ) ≤ (1019 : ℚ) := by
      exact_mod_cast hc
    norm_num at h
    linarith
  · intro h
    have : (1019 : ℚ) < ((track_absDelta trak p e : ℤ) : ℚ) := by
      exact_mod_cast h
    norm_num
    linarith

theorem track_steps_bounds {trak : ℚ} {p : ℤ} {e : ℚ}
    (hd1 : -revolution ≤ track_delta trak p e)
    (hd2 : track_delta trak p e ≤ revolution) :
    0 ≤ track_steps trak p e ∧ track_steps trak p e ≤ 1019 := by
  have habs : |track_delta trak p e| ≤ revolution := abs_le.mpr ⟨hd1, hd2⟩
  have habs0 : 0 ≤ |track_delta trak p e| := abs_nonneg _
  cases hf : track_flip trak p e
  · have hb : ¬ 1019 < track_absDelta trak p e := by
      rw [← track_flip_iff, hf]
      simp
    unfold track_steps
    rw [hf]
    unfold track_absDelta at *
    simp only [Bool.false_eq_true, if_false]
    unfold revolution at *
    omega
  · have hb : 1019 < track_absDelta trak p e := (track_flip_iff trak p e).mp hf
    unfold track_steps
    rw [hf]
    unfold track_absDelta at *
    simp only [if_true]
    unfold revolution at *
    omega

theorem track_steps_nonneg {trak : ℚ} {p : ℤ} {e : ℚ}
    (hd1 : -revolution ≤ track_delta trak p e)
    (hd2 : track_delta trak p e ≤ revolution) :
    0 ≤ track_steps trak p e :=
  (track_steps_bounds hd1 hd2).1

/-! ## The position effect of single steps and rotations -/

theorem motor_step_position (clockwise : Bool) (s : State) :
    (motor_step clockwise s).position =
      (if clockwise then s.position + 1 else s.position - 1) % revolution := rfl

theorem motor_step_acc (clockwise : Bool) (s : State) :
    (motor_step clockwise s).accumulated_error = s.accumulated_error := rfl

theorem motor_off_position (s : State) :
    (motor_off s).position = s.position := rfl

theorem motor_off_acc (s : State) :
    (motor_off s).accumulated_error = s.accumulated_error := rfl

theorem rotate_steps_acc (n : ℕ) (clockwise : Bool) (s : State) :
    (rotate_steps n clockwise s).accumulated_error = s.accumulated_error := by
  induction n generalizing s with
  | zero => rfl
  | succ k ih =>
    unfold rotate_steps
    rw [ih, motor_step_acc]

theorem rotate_steps_position (n : ℕ) (clockwise : Bool) (s : State)
    (h0 : 0 ≤ s.position) (h1 : s.position < revolution) :
    (rotate_steps n clockwise s).position =
      (s.position + (if clockwise then (n : ℤ) else -(n : ℤ))) % revolution := by
  induction n generalizing s with
  | zero =>
    unfold rotate_steps
    unfold revolution at *
    cases clockwise <;> simp <;> omega
  | succ k ih =>
    unfold rotate_steps
    have hstep := motor_step_position clockwise s
    have hb0 : 0 ≤ (motor_step clockwise s).position := by
      rw [hstep]
      unfold revolution
      cases clockwise <;> simp <;> omega
    have hb1 : (motor_step clockwise s).position < revolution := by
      rw [hstep]
      unfold revolution
      cases clockwise <;> simp <;> omega
    rw [ih (motor_step clockwise s) hb0 hb1, hstep]
    unfold revolution
    cases clockwise <;> simp <;> omega

theorem rotate_steps_position_range (n : ℕ) (clockwise : Bool) (s : State)
    (h0 : 0 ≤ s.position) (h1 : s.position < revolution) :
    0 ≤ (rotate_steps n clockwise s).position ∧
      (rotate_steps n clockwise s).position < revolution := by
  rw [rotate_steps_position n clockwise s h0 h1]
  unfold revolution
  cases clockwise <;> simp <;> omega

/-- Driving the chosen steps in the chosen direction lands at
`(position + signed delta) mod revolution`: the shortest-path flip changes
the path, not the destination. -/
theorem plane_track_position (trak : ℚ) (s : State)
    (h0 : 0 ≤ s.position) (h1 : s.position < revolution)
    (hd1 : -revolution ≤ track_delta trak s.position s.accumulated_error)
    (hd2 : track_delta trak s.position s.accumulated_error ≤ revolution) :
    (plane_track trak s).position =
      (s.position + track_delta trak s.position s.accumulated_error) %
        revolution := by
  have hs0 := track_steps_nonneg hd1 hd2
  show (motor_off (rotate_steps _ _ _)).position = _
  rw [motor_off_position,
    rotate_steps_position _ _
      { s with accumulated_error := track_err2 trak s.position s.accumulated_error }
      h0 h1,
    Int.toNat_of_nonneg hs0]
  show (s.position + _) % _ = _
  set p := s.position
  set e := s.accumulated_error
  set δ := track_delta trak p e with hδdef
  unfold track_cw track_steps track_cw0 track_absDelta
  rw [← hδdef]
  cases hf : track_flip trak p e <;> cases hpos : decide (0 < δ) <;>
    simp only [Bool.false_eq_true, if_false, if_true, Bool.not_true,
      Bool.not_false]
  · have hd : ¬ 0 < δ := of_decide_eq_false hpos
    rw [abs_of_nonpos (by omega), neg_neg]
  · have hd : 0 < δ := of_decide_eq_true hpos
    rw [abs_of_pos hd]
  · have hd : ¬ 0 < δ := of_decide_eq_false hpos
    rw [abs_of_nonpos (by omega)]
    unfold revolution
    omega
  · have hd : 0 < δ := of_decide_eq_true hpos
    rw [abs_of_pos hd]
    unfold revolution
    omega

/-! ## The directional indicator ring (from `spotted`) -/

/-- The cell index lit by `spotted`:
`(north + int(LED_COUNT * bearing / 360)) % LED_COUNT`. -/
def spotted_led (north : ℤ) (bearing : ℚ) : ℤ :=
  (north + trunc ((LED_COUNT : ℚ) * bearing / 360)) % LED_COUNT

/-- The LED-strip contents after the start of `spotted`: `strip_clear()`
zeroes every cell, then the single cell `spotted_led` is set to
`(0, led_intensity, 0)`. -/
def spotted_strip (north : ℤ) (bearing : ℚ) : ℤ → ℤ × ℤ × ℤ :=
  Function.update (fun _ => ((0 : ℤ), (0 : ℤ), (0 : ℤ)))
    (spotted_led north bearing) (0, led_intensity, 0)

/-- The cell-selection rule as the specification words it:
`(northCell + round(ringSize * bearingDegrees / 360)) mod ringSize`,
with round-to-nearest.  Defined only to compare with `spotted_led`. -/
def indicate_spec_cell (north : ℤ) (bearing : ℚ) (ringSize : ℤ) : ℤ :=
  (north + round ((ringSize : ℚ) * bearing / 360)) % ringSize

/-! ## Persistence (from `save_position`, `screen_show` and `spotted`) -/

/-- A file-system operation visible to a concurrent reader. -/
inductive FileOp where
  | write (path : String)
  | move (src dst : String)
deriving DecidableEq

/-- The file written by `save_position`. -/
def planes_position_file : String := "planes_position.py"

/-- `save_position` opens `planes_position.py` for writing and writes it
directly: a single write to the target path, no temporary file. -/
def save_position_ops : List FileOp :=
  [FileOp.write planes_position_file]

/-- The two lines `save_position` writes. -/
def save_position_lines (north position : ℤ) : List String :=
  ["north = " ++ toString north ++ "\n",
   "position = " ++ toString position ++ "\n"]

/-- `screen_tmp = '/tmp/planes.tmp.png'` -/
def screen_tmp : String := "/tmp/planes.tmp.png"

/-- `screen_file = '/tmp/planes.png'` -/
def screen_file : String := "/tmp/planes.png"

/-- `screen_show` saves the image to the temporary path then `mv`s it
into place. -/
def screen_show_ops : List FileOp :=
  [FileOp.write screen_tmp, FileOp.move screen_tmp screen_file]

/-- Atomic replace semantics: the operation sequence writes a temporary
location and then moves it onto the target, so a concurrent reader never
observes a torn file. -/
def atomicReplace (ops : List FileOp) (target : String) : Prop :=
  ∃ tmp, tmp ≠ target ∧ ops = [FileOp.write tmp, FileOp.move tmp target]

/-- The externally visible actions of the tracking and calibration code,
at the granularity the persistence contract speaks about. -/
inductive Action where
  | updateStrip
  | showScreen
  | backlightOn
  | track
  | save
  | calibrateStrip
  | calibratePlane
deriving DecidableEq

/-- The action sequence of `spotted`: update the LED strip, draw and show
the screen, turn the backlight on, move the model with `plane_track`,
then `save_position`. -/
def spotted_actions : List Action :=
  [Action.updateStrip, Action.showScreen, Action.backlightOn,
   Action.track, Action.save]

/-- The action sequence of the startup calibration branch:
`calibrate_strip()`, `calibrate_plane()`, then `save_position()`. -/
def startup_calibration_actions : List Action :=
  [Action.calibrateStrip, Action.calibratePlane, Action.save]

/-! ## Startup and calibration (module code and `calibrate_strip`) -/

/-- One press-driven advance of the ring-calibration scan:
`i = (i + 1) % LED_COUNT`. -/
def strip_advance (i : ℤ) : ℤ := (i + 1) % LED_COUNT

/-- The cell returned by `calibrate_strip` after the operator advanced
the scan `presses` times starting from cell 0. -/
def calibrate_strip_cell (presses : ℕ) : ℤ :=
  strip_advance^[presses] 0

/-- The outcome of the startup block
`if north == -1: north = calibrate_strip(); calibrate_plane();
position = 0; save_position()`. -/
structure StartupResult where
  ran_calibration : Bool
  north : ℤ
  position : ℤ
  saved : Option (ℤ × ℤ)
deriving DecidableEq

/-- The startup logic as a function of the loaded `(north, position)`
and of how many times the operator advances the calibration scan. -/
def startup (north position : ℤ) (presses : ℕ) : StartupResult :=
  if north = -1 then
    ⟨true, calibrate_strip_cell presses, 0,
      some (calibrate_strip_cell presses, 0)⟩
  else
    ⟨false, north, position, none⟩

theorem calibrate_strip_cell_range (presses : ℕ) :
    0 ≤ calibrate_strip_cell presses ∧ calibrate_strip_cell presses < 24 := by
  unfold calibrate_strip_cell
  induction presses with
  | zero => simp
  | succ k ih =>
    rw [Function.iterate_succ_apply']
    unfold strip_advance LED_COUNT
    omega

theorem plane_track_acc (trak : ℚ) (s : State) :
    (plane_track trak s).accumulated_error =
      track_err2 trak s.position s.accumulated_error := by
  show (motor_off (rotate_steps _ _ _)).accumulated_error = _
  rw [motor_off_acc, rotate_steps_acc]

/-! ## The claims -/

/-- C1: for every current position in `[0, revolution)` with
`revolution = 2038`, every target bearing in `[0, 360)` and every
accumulated error in `(-1, 1)` at entry, the step count passed to
`plane_rotate` after truncation, error-fix injection, absolute value and
shortest-path reduction satisfies `0 ≤ delta ≤ revolution/2`: the motor
is never driven more than half a revolution in one call. -/
theorem C1_step_count_bound (trak : ℚ) (p : ℤ) (e : ℚ)
    (hp0 : 0 ≤ p) (hp1 : p < revolution)
    (ht0 : 0 ≤ trak) (ht1 : trak < 360)
    (he1 : -1 < e) (he2 : e < 1) :
    0 ≤ track_steps trak p e ∧ 2 * track_steps trak p e ≤ revolution := by
  obtain ⟨h1, h2⟩ := track_delta_bounds hp0 hp1 ht0 ht1 he1 he2
  obtain ⟨h3, h4⟩ := track_steps_bounds h1 h2
  unfold revolution
  omega

theorem C1_step_count_bound_witness :
    0 ≤ track_steps 90 0 0 ∧ 2 * track_steps 90 0 0 ≤ revolution :=
  C1_step_count_bound 90 0 0 (by norm_num)
    (by unfold revolution; norm_num) (by norm_num) (by norm_num)
    (by norm_num) (by norm_num)

/-- C2: the accumulated error is an invariant of `plane_track`: starting
strictly inside `(-1, 1)`, it is again strictly inside `(-1, 1)` after
every call, over any sequence of calls with any target bearings. -/
theorem C2_accumulated_error_invariant (s : State) (traks : List ℚ)
    (he1 : -1 < s.accumulated_error) (he2 : s.accumulated_error < 1) :
    -1 < (run_tracks s traks).accumulated_error ∧
      (run_tracks s traks).accumulated_error < 1 := by
  induction traks generalizing s with
  | nil => exact ⟨he1, he2⟩
  | cons t ts ih =>
    show -1 < (run_tracks (plane_track t s) ts).accumulated_error ∧ _
    apply ih
    · rw [plane_track_acc]
      exact (track_err2_bounds t s.position he1 he2).1
    · rw [plane_track_acc]
      exact (track_err2_bounds t s.position he1 he2).2

theorem C2_accumulated_error_invariant_witness :
    -1 < (run_tracks ⟨0, 0, 0, []⟩ [90, 10, 355]).accumulated_error ∧
      (run_tracks ⟨0, 0, 0, []⟩ [90, 10, 355]).accumulated_error < 1 :=
  C2_accumulated_error_invariant ⟨0, 0, 0, []⟩ [90, 10, 355]
    (by norm_num) (by norm_num)

/-- C7: `position` stays an integer in `[0, revolution)`: `motor_step`
changes it by exactly `+1` (clockwise) or `-1` (counter-clockwise) and
wraps it modulo `revolution`, and `plane_track` (which drives the motor
only through `motor_step`) preserves `position ∈ [0, revolution)`. -/
theorem C7_position_range_invariant (s : State) (clockwise : Bool) (trak : ℚ) :
    (motor_step clockwise s).position =
        (s.position + (if clockwise then 1 else -1)) % revolution ∧
    (0 ≤ (motor_step clockwise s).position ∧
      (motor_step clockwise s).position < revolution) ∧
    (0 ≤ s.position → s.position < revolution →
      0 ≤ (plane_track trak s).position ∧
        (plane_track trak s).position < revolution) := by
  refine ⟨?_, ?_, ?_⟩
  · rw [motor_step_position]
    cases clockwise <;> simp [Int.sub_eq_add_neg]
  · rw [motor_step_position]
    unfold revolution
    cases clockwise <;> simp <;> omega
  · intro h0 h1
    show 0 ≤ (motor_off (rotate_steps _ _ _)).position ∧ _
    rw [motor_off_position]
    exact rotate_steps_position_range _ _
      { s with accumulated_error := track_err2 trak s.position s.accumulated_error }
      h0 h1

theorem C7_position_range_invariant_witness :
    (motor_step true ⟨5, 2, 0, []⟩).position =
        ((5 : ℤ) + (if true then 1 else -1)) % revolution ∧
    (0 ≤ (motor_step true ⟨5, 2, 0, []⟩).position ∧
      (motor_step true ⟨5, 2, 0, []⟩).position < revolution) ∧
    (0 ≤ (5 : ℤ) → (5 : ℤ) < revolution →
      0 ≤ (plane_track 90 ⟨5, 2, 0, []⟩).position ∧
        (plane_track 90 ⟨5, 2, 0, []⟩).position < revolution) :=
  C7_position_range_invariant ⟨5, 2, 0, []⟩ true 90

/-- C10: the shortest-path flip changes the path but never the
destination: under valid entry state, the position after `plane_track`
finishes is the starting position plus the signed step delta computed
before the flip, reduced modulo `revolution`. -/
theorem C10_flip_preserves_destination (trak : ℚ) (s : State)
    (hp0 : 0 ≤ s.position) (hp1 : s.position < revolution)
    (ht0 : 0 ≤ trak) (ht1 : trak < 360)
    (he1 : -1 < s.accumulated_error) (he2 : s.accumulated_error < 1) :
    (plane_track trak s).position =
      (s.position + track_delta trak s.position s.accumulated_error) %
        revolution := by
  obtain ⟨h1, h2⟩ := track_delta_bounds hp0 hp1 ht0 ht1 he1 he2
  exact plane_track_position trak s hp0 hp1 h1 h2

theorem C10_flip_preserves_destination_witness :
    (plane_track 270 ⟨100, 0, 0, []⟩).position =
      ((100 : ℤ) +
        track_delta 270 (State.mk 100 0 0 []).position
          (State.mk 100 0 0 []).accumulated_error) % revolution :=
  C10_flip_preserves_destination 270 ⟨100, 0, 0, []⟩ (by norm_num)
    (by unfold revolution; norm_num) (by norm_num) (by norm_num)
    (by norm_num) (by norm_num)

theorem seq_reassemble (k : ℕ) (hk : k < 4) :
    [(seq.getD k []).getD 0 false, (seq.getD k []).getD 1 false,
     (seq.getD k []).getD 2 false, (seq.getD k []).getD 3 false] =
      seq.getD k [] := by
  interval_cases k <;> rfl

/-- C8: a single step activates exactly the coil phase at
`(currentStep + 1) mod 4` when clockwise and `(currentStep - 1) mod 4`
when counter-clockwise, drawn from the canonical 4-phase sequence, and
the phase index always stays in `[0, 4)`. -/
theorem C8_coil_phase_sequence (s : State) (clockwise : Bool) :
    (motor_step clockwise s).current_step =
        (s.current_step + (if clockwise then 1 else -1)) % 4 ∧
    (0 ≤ (motor_step clockwise s).current_step ∧
      (motor_step clockwise s).current_step < 4) ∧
    (motor_step clockwise s).coils =
        seq.getD (motor_step clockwise s).current_step.toNat [] ∧
    seq = [[true,  true,  false, false],
           [false, true,  true,  false],
           [false, false, true,  true ],
           [true,  false, false, true ]] := by
  have hcs : (motor_step clockwise s).current_step =
      (if clockwise then s.current_step + 1 else s.current_step - 1) %
        steps := rfl
  have hrange : 0 ≤ (motor_step clockwise s).current_step ∧
      (motor_step clockwise s).current_step < 4 := by
    rw [hcs]
    unfold steps
    cases clockwise <;> simp <;> omega
  refine ⟨?_, hrange, ?_, rfl⟩
  · rw [hcs]
    unfold steps
    cases clockwise <;> simp [Int.sub_eq_add_neg]
  · have hk : (motor_step clockwise s).current_step.toNat < 4 := by omega
    exact seq_reassemble _ hk

theorem C8_coil_phase_sequence_witness :
    (motor_step false ⟨0, 0, 0, []⟩).current_step =
        ((0 : ℤ) + (if false then 1 else -1)) % 4 ∧
    (0 ≤ (motor_step false ⟨0, 0, 0, []⟩).current_step ∧
      (motor_step false ⟨0, 0, 0, []⟩).current_step < 4) ∧
    (motor_step false ⟨0, 0, 0, []⟩).coils =
        seq.getD (motor_step false ⟨0, 0, 0, []⟩).current_step.toNat [] ∧
    seq = [[true,  true,  false, false],
           [false, true,  true,  false],
           [false, false, true,  true ],
           [true,  false, false, true ]] :=
  C8_coil_phase_sequence ⟨0, 0, 0, []⟩ false

/-- C9: at startup both calibration procedures run if and only if the
loaded north cell is the sentinel `-1`; when they run, the chosen cell
and `position = 0` are persisted, the chosen cell is a valid cell index,
and a reload with the persisted values skips calibration. -/
theorem C9_calibration_gate (north position : ℤ) (presses reload : ℕ) :
    ((startup north position presses).ran_calibration = true ↔
      north = -1) ∧
    (north = -1 →
      (startup north position presses).saved =
          some (calibrate_strip_cell presses, 0) ∧
      0 ≤ calibrate_strip_cell presses ∧
      calibrate_strip_cell presses < LED_COUNT ∧
      (startup (calibrate_strip_cell presses) 0 reload).ran_calibration =
        false) := by
  obtain ⟨hc0, hc1⟩ := calibrate_strip_cell_range presses
  constructor
  · unfold startup
    split <;> rename_i h <;> simp [h]
  · intro h
    refine ⟨?_, hc0, ?_, ?_⟩
    · unfold startup
      rw [if_pos h]
    · unfold LED_COUNT
      omega
    · unfold startup
      rw [if_neg (by omega)]

theorem C9_calibration_gate_witness :
    ((startup (-1) 7 3).ran_calibration = true ↔ (-1 : ℤ) = -1) ∧
    ((-1 : ℤ) = -1 →
      (startup (-1) 7 3).saved = some (calibrate_strip_cell 3, 0) ∧
      0 ≤ calibrate_strip_cell 3 ∧
      calibrate_strip_cell 3 < LED_COUNT ∧
      (startup (calibrate_strip_cell 3) 0 5).ran_calibration = false) :=
  C9_calibration_gate (-1) 7 3 5

/-- C3 fails as stated: at `bearing = 9°`, `north = 0`, ring size 24, the
code's `int()` truncation selects cell `0` while the claimed
round-to-nearest formula selects cell `1`. -/
theorem C3_round_counterexample :
    spotted_led 0 9 = 0 ∧ indicate_spec_cell 0 9 24 = 1 ∧
      spotted_led 0 9 ≠ indicate_spec_cell 0 9 24 := by
  have hq : ((LED_COUNT : ℤ) : ℚ) * 9 / 360 = 3 / 5 := by
    unfold LED_COUNT
    norm_num
  have h1 : spotted_led 0 9 = 0 := by
    unfold spotted_led
    rw [hq, trunc_eq_zero (by norm_num) (by norm_num)]
    rfl
  have h2 : indicate_spec_cell 0 9 24 = 1 := by
    unfold indicate_spec_cell
    rw [show ((24 : ℤ) : ℚ) * 9 / 360 = 3 / 5 by norm_num]
    rw [show round ((3 : ℚ) / 5) = 1 by rw [round_eq]; norm_num]
    rfl
  exact ⟨h1, h2, by rw [h1, h2]; norm_num⟩

/-- C3 amended: for every bearing in `[0, 360)` and north cell in
`[0, 24)`, the indicator ring lights exactly one cell, at index
`(northCell + trunc(ringSize * bearingDegrees / 360)) mod ringSize` with
truncation toward zero (not round-to-nearest), and all other cells are
cleared. -/
theorem C3_one_cell_lit (north : ℤ) (bearing : ℚ)
    (_hb0 : 0 ≤ bearing) (_hb1 : bearing < 360)
    (_hn0 : 0 ≤ north) (_hn1 : north < LED_COUNT) :
    spotted_led north bearing =
        (north + trunc ((LED_COUNT : ℚ) * bearing / 360)) % LED_COUNT ∧
    (0 ≤ spotted_led north bearing ∧
      spotted_led north bearing < LED_COUNT) ∧
    ∀ i : ℤ, spotted_strip north bearing i =
      if i = spotted_led north bearing then (0, led_intensity, 0)
      else (0, 0, 0) := by
  refine ⟨rfl, ?_, ?_⟩
  · unfold spotted_led LED_COUNT
    constructor
    · exact Int.emod_nonneg _ (by norm_num)
    · exact Int.emod_lt_of_pos _ (by norm_num)
  · intro i
    unfold spotted_strip
    rw [Function.update_apply]

theorem C3_one_cell_lit_witness :
    spotted_led 3 9 =
        ((3 : ℤ) + trunc ((LED_COUNT : ℤ) * (9 : ℚ) / 360)) % LED_COUNT ∧
    (0 ≤ spotted_led 3 9 ∧ spotted_led 3 9 < LED_COUNT) ∧
    ∀ i : ℤ, spotted_strip 3 9 i =
      if i = spotted_led 3 9 then (0, led_intensity, 0) else (0, 0, 0) :=
  C3_one_cell_lit 3 9 (by norm_num) (by norm_num) (by norm_num)
    (by unfold LED_COUNT; norm_num)

/-- C4 fails as stated: `save_position` does not use atomic replace
semantics; it is a single direct write to `planes_position.py` with no
temporary file and no move. -/
theorem C4_not_atomic_counterexample :
    ¬ atomicReplace save_position_ops planes_position_file := by
  rintro ⟨tmp, -, h⟩
  unfold save_position_ops at h
  simp at h

/-- C4 amended: `save_position` durably writes both integers but with a
single direct overwrite of `planes_position.py` (no temporary location,
no move — a concurrent reader can observe a torn state file); the
temporary-file-plus-move pattern exists only for the screen image in
`screen_show`.  It is invoked after every completed `plane_track` move
(`spotted` ends with track then save) and after calibration confirmation
(the startup calibration branch ends with save). -/
theorem C4_save_position_semantics :
    save_position_ops = [FileOp.write planes_position_file] ∧
    (∀ src dst, FileOp.move src dst ∉ save_position_ops) ∧
    (∀ n p : ℤ, save_position_lines n p =
      ["north = " ++ toString n ++ "\n",
       "position = " ++ toString p ++ "\n"]) ∧
    atomicReplace screen_show_ops screen_file ∧
    (∃ pre, spotted_actions = pre ++ [Action.track, Action.save]) ∧
    (∃ pre, startup_calibration_actions = pre ++ [Action.save]) := by
  refine ⟨rfl, ?_, fun n p => rfl, ?_, ?_, ?_⟩
  · intro src dst hmem
    unfold save_position_ops at hmem
    simp at hmem
  · refine ⟨screen_tmp, ?_, rfl⟩
    unfold screen_tmp screen_file
    decide
  · exact ⟨[Action.updateStrip, Action.showScreen, Action.backlightOn], rfl⟩
  · exact ⟨[Action.calibrateStrip, Action.calibratePlane], rfl⟩

/-! ## Convergence of repeated tracking (for C5) -/

/-- The continuous target `t` (in steps) and the logical position `p`
agree to within one motor step, modulo a full revolution. -/
def near_target (t : ℚ) (p : ℤ) : Prop :=
  ∃ m : ℤ, |t - (p : ℚ) - (m : ℚ) * (revolution : ℚ)| < 1

/-- The residual `d - delta` after the fix step is strictly smaller than
one step in magnitude. -/
theorem frac_minus_fix_bounds (trak : ℚ) (p : ℤ) {e : ℚ}
    (he1 : -1 < e) (he2 : e < 1) :
    |track_d trak p - (track_delta trak p e : ℚ)| < 1 := by
  obtain ⟨hf1, hf2⟩ := sub_trunc_bounds (track_d trak p)
  obtain ⟨h1, h2⟩ := track_err1_bounds trak p he1 he2
  have hx : track_err1 trak p e =
      e + (track_d trak p - (track_delta0 trak p : ℚ)) := rfl
  have hf1' : -1 < track_d trak p - (track_delta0 trak p : ℚ) := hf1
  have hf2' : track_d trak p - (track_delta0 trak p : ℚ) < 1 := hf2
  rcases track_fix_cases trak p e h1 h2 with ⟨hb, hfx⟩ | ⟨hb, hfx⟩ |
      ⟨hb, hb', hfx⟩ <;>
    rw [hx] at hb <;>
    unfold track_delta <;>
    rw [hfx, abs_lt] <;>
    push_cast <;>
    constructor <;>
    linarith

/-- After any valid call, the position is within one step of the
continuous target, modulo a revolution. -/
theorem plane_track_near (trak : ℚ) (s : State)
    (hp0 : 0 ≤ s.position) (hp1 : s.position < revolution)
    (ht0 : 0 ≤ trak) (ht1 : trak < 360)
    (he1 : -1 < s.accumulated_error) (he2 : s.accumulated_error < 1) :
    near_target (trak * steps_per_degree) (plane_track trak s).position := by
  obtain ⟨hd1, hd2⟩ := track_delta_bounds hp0 hp1 ht0 ht1 he1 he2
  have hpos := plane_track_position trak s hp0 hp1 hd1 hd2
  set p := s.position with hp
  set e := s.accumulated_error with he
  set δ := track_delta trak p e with hδ
  refine ⟨(p + δ) / revolution, ?_⟩
  have h2 : trak * steps_per_degree - (((p + δ) % revolution : ℤ) : ℚ) -
      (((p + δ) / revolution : ℤ) : ℚ) * (revolution : ℚ) =
      track_d trak p - (δ : ℚ) := by
    have hmod : (p + δ) % revolution =
        (p + δ) - revolution * ((p + δ) / revolution) := by
      have := Int.ediv_add_emod (p + δ) revolution
      omega
    rw [hmod]
    unfold track_d
    push_cast
    ring
  rw [hpos, h2]
  exact frac_minus_fix_bounds trak p he1 he2

/-- If the position is already within one step of the target, the next
call with the same bearing issues zero or one motor steps. -/
theorem track_steps_le_one_of_near (trak : ℚ) (p : ℤ) (e : ℚ)
    (hp0 : 0 ≤ p) (hp1 : p < revolution)
    (ht0 : 0 ≤ trak) (ht1 : trak < 360)
    (he1 : -1 < e) (he2 : e < 1)
    (hnear : near_target (trak * steps_per_degree) p) :
    0 ≤ track_steps trak p e ∧ track_steps trak p e ≤ 1 := by
  obtain ⟨m, hm⟩ := hnear
  rw [abs_lt] at hm
  have hrev : ((revolution : ℤ) : ℚ) = 2038 := by
    unfold revolution
    norm_num
  rw [hrev] at hm
  obtain ⟨hm1, hm2⟩ := hm
  have hdt : track_d trak p = trak * steps_per_degree - (p : ℚ) := rfl
  obtain ⟨hd1, hd2⟩ := track_d_bounds hp0 hp1 ht0 ht1
  obtain ⟨hfx1, hfx2⟩ := track_fix_bounds trak p he1 he2
  obtain ⟨he1', he2'⟩ := track_err1_bounds trak p (e := e) he1 he2
  obtain ⟨hfr1, hfr2⟩ := sub_trunc_bounds (track_d trak p)
  have hfr1' : -1 < track_d trak p - (track_delta0 trak p : ℚ) := hfr1
  have hfr2' : track_d trak p - (track_delta0 trak p : ℚ) < 1 := hfr2
  have hx : track_err1 trak p e =
      e + (track_d trak p - (track_delta0 trak p : ℚ)) := rfl
  have hm_cases : m = -1 ∨ m = 0 ∨ m = 1 := by
    have hq1 : (m : ℚ) < 2 := by nlinarith
    have hq2 : (-2 : ℚ) < (m : ℚ) := by nlinarith
    have hz1 : m < 2 := by exact_mod_cast hq1
    have hz2 : -2 < m := by exact_mod_cast hq2
    omega
  rcases hm_cases with hm0 | hm0 | hm0
  · -- m = -1 : the target sits one revolution below the position
    subst hm0
    push_cast at hm1 hm2
    have hda : -2038 < track_d trak p := hd1
    have hdb : track_d trak p < -2037 := by rw [hdt]; linarith
    have hδ0 : track_delta0 trak p = -2037 := by
      unfold track_delta0
      exact trunc_eq_of_nonpos (by norm_num) (by push_cast; linarith)
        (by push_cast; linarith)
    have hfr0 : track_d trak p - (track_delta0 trak p : ℚ) < 0 := by
      rw [hδ0]
      push_cast
      linarith
    have hfixv : track_fix trak p e = -1 ∨ track_fix trak p e = 0 := by
      rcases track_fix_cases trak p e he1' he2' with ⟨hb, hfx⟩ | ⟨_, hfx⟩ |
          ⟨_, _, hfx⟩
      · exfalso
        rw [hx] at hb
        linarith
      · exact Or.inl hfx
      · exact Or.inr hfx
    have hδv : track_delta trak p e = -2038 ∨ track_delta trak p e = -2037 := by
      unfold track_delta
      rw [hδ0]
      omega
    have habs : track_absDelta trak p e = 2038 ∨
        track_absDelta trak p e = 2037 := by
      unfold track_absDelta
      rcases hδv with h | h <;> rw [h] <;> simp
    have hflip : track_flip trak p e = true :=
      (track_flip_iff trak p e).mpr (by omega)
    unfold track_steps
    rw [hflip]
    simp only [if_true]
    unfold revolution
    omega
  · -- m = 0 : the target is within one step without wrapping
    subst hm0
    push_cast at hm1 hm2
    have hda : -1 < track_d trak p := by rw [hdt]; linarith
    have hdb : track_d trak p < 1 := by rw [hdt]; linarith
    have hδ0 : track_delta0 trak p = 0 := by
      unfold track_delta0
      exact trunc_eq_zero hda hdb
    have hδv : -1 ≤ track_delta trak p e ∧ track_delta trak p e ≤ 1 := by
      unfold track_delta
      rw [hδ0]
      omega
    have habs : track_absDelta trak p e ≤ 1 := by
      unfold track_absDelta
      rw [abs_le]
      exact hδv
    have habs' : 0 ≤ track_absDelta trak p e := abs_nonneg _
    have hflip : track_flip trak p e = false := by
      cases hf : track_flip trak p e
      · rfl
      · exfalso
        have := (track_flip_iff trak p e).mp hf
        omega
    unfold track_steps
    rw [hflip]
    simp only [Bool.false_eq_true, if_false]
    exact ⟨habs', habs⟩
  · -- m = 1 : the target sits one revolution above the position
    subst hm0
    push_cast at hm1 hm2
    have hda : 2037 < track_d trak p := by rw [hdt]; linarith
    have hdb : track_d trak p < 2038 := hd2
    have hδ0 : track_delta0 trak p = 2037 := by
      unfold track_delta0
      exact trunc_eq_of_nonneg (by norm_num) (by push_cast; linarith)
        (by push_cast; linarith)
    have hfr0 : 0 < track_d trak p - (track_delta0 trak p : ℚ) := by
      rw [hδ0]
      push_cast
      linarith
    have hfixv : track_fix trak p e = 1 ∨ track_fix trak p e = 0 := by
      rcases track_fix_cases trak p e he1' he2' with ⟨_, hfx⟩ | ⟨hb, hfx⟩ |
          ⟨_, _, hfx⟩
      · exact Or.inl hfx
      · exfalso
        rw [hx] at hb
        linarith
      · exact Or.inr hfx
    have hδv : track_delta trak p e = 2038 ∨ track_delta trak p e = 2037 := by
      unfold track_delta
      rw [hδ0]
      omega
    have habs : track_absDelta trak p e = 2038 ∨
        track_absDelta trak p e = 2037 := by
      unfold track_absDelta
      rcases hδv with h | h <;> rw [h] <;> simp
    have hflip : track_flip trak p e = true :=
      (track_flip_iff trak p e).mpr (by omega)
    unfold track_steps
    rw [hflip]
    simp only [if_true]
    unfold revolution
    omega

/-- C5: for every fixed bearing `b` in `[0, 360)` and every valid
starting state, after a call to `plane_track b` the position is within
one step of `b * steps_per_degree` modulo `revolution`; and from any
state already within one step of the target (in particular, any state
reached by a previous call with the same `b`), the call issues zero or
one further motor steps — the position cannot oscillate. -/
theorem C5_repeated_tracking_converges (trak : ℚ) (s : State)
    (hp0 : 0 ≤ s.position) (hp1 : s.position < revolution)
    (ht0 : 0 ≤ trak) (ht1 : trak < 360)
    (he1 : -1 < s.accumulated_error) (he2 : s.accumulated_error < 1) :
    near_target (trak * steps_per_degree) (plane_track trak s).position ∧
    (near_target (trak * steps_per_degree) s.position →
      0 ≤ track_steps trak s.position s.accumulated_error ∧
        track_steps trak s.position s.accumulated_error ≤ 1) :=
  ⟨plane_track_near trak s hp0 hp1 ht0 ht1 he1 he2,
   fun hnear => track_steps_le_one_of_near trak s.position
     s.accumulated_error hp0 hp1 ht0 ht1 he1 he2 hnear⟩

theorem C5_repeated_tracking_converges_witness :
    near_target ((90 : ℚ) * steps_per_degree)
      (plane_track 90 ⟨0, 0, 0, []⟩).position ∧
    (near_target ((90 : ℚ) * steps_per_degree)
        (State.mk 0 0 0 []).position →
      0 ≤ track_steps 90 (State.mk 0 0 0 []).position
          (State.mk 0 0 0 []).accumulated_error ∧
        track_steps 90 (State.mk 0 0 0 []).position
          (State.mk 0 0 0 []).accumulated_error ≤ 1) :=
  C5_repeated_tracking_converges 90 ⟨0, 0, 0, []⟩ (by norm_num)
    (by unfold revolution; norm_num) (by norm_num) (by norm_num)
    (by norm_num) (by norm_num)

/-! ## Scenario A/B computations (for C6) -/

theorem track_values_180_from_0 :
    track_delta 180 0 0 = 1019 ∧ track_err2 180 0 0 = 0 ∧
      track_steps 180 0 0 = 1019 ∧ track_cw 180 0 0 = true := by
  have hd : track_d 180 0 = 1019 := by
    unfold track_d steps_per_degree revolution
    norm_num
  have hd0 : track_delta0 180 0 = 1019 := by
    unfold track_delta0
    rw [hd]
    exact trunc_eq_of_nonneg (by norm_num) (by norm_num) (by norm_num)
  have he1 : track_err1 180 0 0 = 0 := by
    unfold track_err1
    rw [hd, hd0]
    norm_num
  have hfix : track_fix 180 0 0 = 0 := by
    unfold track_fix
    rw [he1]
    norm_num
  have hδ : track_delta 180 0 0 = 1019 := by
    unfold track_delta
    rw [hd0, hfix]
    norm_num
  have habs : track_absDelta 180 0 0 = 1019 := by
    unfold track_absDelta
    rw [hδ]
    rfl
  have hflip : track_flip 180 0 0 = false := by
    unfold track_flip
    rw [decide_eq_false_iff_not, habs]
    unfold revolution
    norm_num
  refine ⟨hδ, ?_, ?_, ?_⟩
  · unfold track_err2
    rw [he1, hfix]
    norm_num
  · unfold track_steps
    rw [hflip, habs]
    rfl
  · unfold track_cw
    rw [hflip]
    unfold track_cw0
    rw [hδ]
    rfl

theorem track_values_0_from_1019 :
    track_delta 0 1019 0 = -1019 ∧ track_err2 0 1019 0 = 0 ∧
      track_steps 0 1019 0 = 1019 ∧ track_cw 0 1019 0 = false := by
  have hd : track_d 0 1019 = -1019 := by
    unfold track_d steps_per_degree revolution
    norm_num
  have hd0 : track_delta0 0 1019 = -1019 := by
    unfold track_delta0
    rw [hd]
    exact trunc_eq_of_nonpos (by norm_num) (by norm_num) (by norm_num)
  have he1 : track_err1 0 1019 0 = 0 := by
    unfold track_err1
    rw [hd, hd0]
    norm_num
  have hfix : track_fix 0 1019 0 = 0 := by
    unfold track_fix
    rw [he1]
    norm_num
  have hδ : track_delta 0 1019 0 = -1019 := by
    unfold track_delta
    rw [hd0, hfix]
    norm_num
  have habs : track_absDelta 0 1019 0 = 1019 := by
    unfold track_absDelta
    rw [hδ]
    rfl
  have hflip : track_flip 0 1019 0 = false := by
    unfold track_flip
    rw [decide_eq_false_iff_not, habs]
    unfold revolution
    norm_num
  refine ⟨hδ, ?_, ?_, ?_⟩
  · unfold track_err2
    rw [he1, hfix]
    norm_num
  · unfold track_steps
    rw [hflip, habs]
    rfl
  · unfold track_cw
    rw [hflip]
    unfold track_cw0
    rw [hδ]
    rfl

/-- C6: with `revolution = 2038` and zero accumulated error, from
position 0 a call `plane_track(180)` computes 1019 steps (here clockwise)
and leaves position 1019; then from position 1019 a call `plane_track(0)`
computes 1019 steps in the opposite direction and leaves position 0. -/
theorem C6_scenario_A_B :
    track_steps 180 0 0 = 1019 ∧ track_cw 180 0 0 = true ∧
    (plane_track 180 ⟨0, 0, 0, []⟩).position = 1019 ∧
    track_steps 0 1019 0 = 1019 ∧ track_cw 0 1019 0 = false ∧
    (plane_track 0 (plane_track 180 ⟨0, 0, 0, []⟩)).position = 0 := by
  obtain ⟨haδ, hae, has, hac⟩ := track_values_180_from_0
  obtain ⟨hbδ, hbe, hbs, hbc⟩ := track_values_0_from_1019
  have hApos : (plane_track 180 ⟨0, 0, 0, []⟩).position = 1019 := by
    rw [plane_track_position 180 ⟨0, 0, 0, []⟩ (by norm_num)
      (by unfold revolution; norm_num)
      (by rw [show (State.mk 0 0 0 []).position = 0 from rfl,
          show (State.mk 0 0 0 []).accumulated_error = 0 from rfl, haδ]
          unfold revolution; norm_num)
      (by rw [show (State.mk 0 0 0 []).position = 0 from rfl,
          show (State.mk 0 0 0 []).accumulated_error = 0 from rfl, haδ]
          unfold revolution; norm_num)]
    rw [show (State.mk 0 0 0 []).position = 0 from rfl,
      show (State.mk 0 0 0 []).accumulated_error = 0 from rfl, haδ]
    unfold revolution
    decide
  have hAacc : (plane_track 180 ⟨0, 0, 0, []⟩).accumulated_error = 0 := by
    rw [plane_track_acc]
    rw [show (State.mk 0 0 0 []).position = 0 from rfl,
      show (State.mk 0 0 0 []).accumulated_error = 0 from rfl]
    exact hae
  refine ⟨has, hac, hApos, hbs, hbc, ?_⟩
  set s1 := plane_track 180 ⟨0, 0, 0, []⟩ with hs1
  rw [plane_track_position 0 s1 (by rw [hApos]; norm_num)
    (by rw [hApos]; unfold revolution; norm_num)
    (by rw [hApos, hAacc, hbδ]; unfold revolution; norm_num)
    (by rw [hApos, hAacc, hbδ]; unfold revolution; norm_num)]
  rw [hApos, hAacc, hbδ]
  unfold revolution
  decide

end Aeronear
